import Mathlib

/-!
Verification of the mutation tracker in `pkg/manifestclient/mutation_tracker.go`.

The Go source is shallowly embedded:

* `Action` is `string` in Go, so it is `String` here; the six enumerated
  constants are kept by name.
* A Go map `map[Action]*actionTracker[T]` is embedded as an association list
  `List (Action × actionTracker T)`.  Go map iteration order is unspecified;
  the association list fixes one admissible order (key-insertion order), and
  every property that would depend on iteration order is stated only up to
  permutation (multiset equality).  A `nil` map differs from an allocated
  empty map in Go (`AddRequest` tests `== nil` explicitly), so the field is
  `Option (List _)` with `none` for the `nil` map of a zero-value tracker.
* Go panics are embedded as failure values: `Option` with `none` for a panic
  when no post-panic state is observable, and `Except` carrying the state the
  receiver held when the panic propagated (the spec's "leaving prior
  insertions intact" is about exactly that state).
* The `SerializedRequestish` type parameter bound is declared in a file of
  this repository that is not part of the sources here; it is modelled from
  the spec's capability contract (report your Action, produce a deep copy).
  `deepCopy` returns `Option T`: `none` embeds the case in which the dynamic
  type of the produced copy is not `T`, so that the type assertion
  `v.DeepCopy().(T)` in `actionTracker.DeepCopy` panics.
-/

namespace ManifestClient

/-- Go: `type Action string` — the kind of a tracked mutation. -/
abbrev Action := String

/-- Go: `ActionApply Action = "Apply"` -/
def ActionApply : Action := "Apply"

/-- Go: `ActionApplyStatus Action = "ApplyStatus"` -/
def ActionApplyStatus : Action := "ApplyStatus"

/-- Go: `ActionUpdate Action = "Update"` -/
def ActionUpdate : Action := "Update"

/-- Go: `ActionUpdateStatus Action = "UpdateStatus"` -/
def ActionUpdateStatus : Action := "UpdateStatus"

/-- Go: `ActionCreate Action = "Create"` -/
def ActionCreate : Action := "Create"

/-- Go: `ActionDelete Action = "Delete"` -/
def ActionDelete : Action := "Delete"

/-- Go: `AllActions = sets.New[Action](...)` — the closed set of six actions. -/
def AllActions : List Action :=
  [ActionApply, ActionApplyStatus, ActionUpdate, ActionUpdateStatus, ActionCreate, ActionDelete]

/-- Go: `schema.GroupVersionResource` (only its shape matters here). -/
structure GroupVersionResource where
  group : String
  version : String
  resource : String
  deriving DecidableEq

/-- Go: `type ActionMetadata struct` — descriptive tuple carried by a record. -/
structure ActionMetadata where
  action : Action
  gvr : GroupVersionResource
  nsName : String
  name : String
  deriving DecidableEq

/-- Modelled from the spec: the `SerializedRequestish` capability contract of
the type parameter `T` (declared outside the embedded sources).  A record can
report the `Action` it belongs to (`request.GetSerializedRequest().Action`)
and produce a deep copy of itself; `deepCopy r = none` embeds a copy whose
dynamic type is not `T`, on which the type assertion `.(T)` panics. -/
structure SerializedRequestish (T : Type) where
  getAction : T → Action
  deepCopy : T → Option T

/-- Go: `type actionTracker[T SerializedRequestish] struct` — one action's
ordered record sequence. -/
structure actionTracker (T : Type) where
  action : Action
  requests : List T
  deriving DecidableEq

/-- Go: `type AllActionsTracker[T SerializedRequestish] struct` — the top-level
tracker.  `actionToTracker = none` embeds the `nil` map of a zero-value
tracker; `some m` embeds an allocated map with entries `m`. -/
structure AllActionsTracker (T : Type) where
  actionToTracker : Option (List (Action × actionTracker T))
  deriving DecidableEq

/-- Go map read `m[k]`: first binding of `k`, if any. -/
def lookupA {β : Type} : List (Action × β) → Action → Option β
  | [], _ => none
  | (k, v) :: rest, a => if k = a then some v else lookupA rest a

/-- Go map write `m[k] = v` for a key already present: replace its binding. -/
def setA {β : Type} : List (Action × β) → Action → β → List (Action × β)
  | [], _, _ => []
  | (k, v) :: rest, a, w => if k = a then (k, w) :: rest else (k, v) :: setA rest a w

/-- Go: `NewAllActionsTracker[T]()` — fresh tracker with an allocated empty map. -/
def NewAllActionsTracker (T : Type) : AllActionsTracker T := ⟨some []⟩

/-- The zero value `AllActionsTracker[T]{}`: its map is `nil`. -/
def zeroAllActionsTracker (T : Type) : AllActionsTracker T := ⟨none⟩

/-- The entries the Go map holds for reading purposes: a `nil` map reads as
empty (lookup misses, `range` iterates zero times, `KeySet` is empty). -/
def AllActionsTracker.entries {T : Type} (a : AllActionsTracker T) :
    List (Action × actionTracker T) :=
  a.actionToTracker.getD []

/-- Go: `func (a *actionTracker[T]) Mutations() []T` — returns the live slice. -/
def actionTracker.Mutations {T : Type} (a : actionTracker T) : List T :=
  a.requests

/-- Go: `func (a *actionTracker[T]) AddRequest(request T)` — panics
(`panic("coding error")`, embedded as `none`) when the record's reported
action differs from the tracker's own; otherwise appends. -/
def actionTracker.AddRequest {T : Type} (cap : SerializedRequestish T)
    (a : actionTracker T) (request : T) : Option (actionTracker T) :=
  if a.action ≠ cap.getAction request then none
  else some ⟨a.action, a.requests ++ [request]⟩

/-- Go: `func (a *AllActionsTracker[T]) AddRequest(request T)` — allocates the map
if `nil`, lazily creates the sub-tracker for the record's action, and
delegates.  `Except.error s` embeds the propagating panic of the delegate
call together with the state `s` the receiver holds at that moment (the map
allocation and any entry insertion performed before the panic are kept). -/
def AllActionsTracker.AddRequest {T : Type} (cap : SerializedRequestish T)
    (a : AllActionsTracker T) (request : T) :
    Except (AllActionsTracker T) (AllActionsTracker T) :=
  let m0 := a.actionToTracker.getD []
  let act := cap.getAction request
  let m1 := if (lookupA m0 act).isSome then m0 else m0 ++ [(act, ⟨act, []⟩)]
  match lookupA m1 act with
  | none => .error ⟨some m1⟩
  | some t =>
    match actionTracker.AddRequest cap t request with
    | none => .error ⟨some m1⟩
    | some t2 => .ok ⟨some (setA m1 act t2)⟩

/-- Go: `func (a *AllActionsTracker[T]) AddRequests(requests ...T)` — the loop
calling `AddRequest` on each record in order; a panic aborts the loop. -/
def AllActionsTracker.AddRequests {T : Type} (cap : SerializedRequestish T)
    (a : AllActionsTracker T) :
    List T → Except (AllActionsTracker T) (AllActionsTracker T)
  | [] => .ok a
  | r :: rs =>
    match AllActionsTracker.AddRequest cap a r with
    | .error e => .error e
    | .ok a2 => AllActionsTracker.AddRequests cap a2 rs

/-- Go: `func (a *AllActionsTracker[T]) ListActions() []Action` —
`sets.List(sets.KeySet(a.actionToTracker))`: the set of keys, sorted
ascending by the string order.  `dedup` renders the set collapse of
`KeySet`; the sort is rendered by `insertionSort`, which agrees with any
correct ascending sort on a duplicate-free list. -/
def AllActionsTracker.ListActions {T : Type} (a : AllActionsTracker T) : List Action :=
  List.insertionSort (· ≤ ·) ((a.entries.map Prod.fst).dedup)

/-- Go: `func (a *AllActionsTracker[T]) RequestsForAction(action Action) []T` —
`a.actionToTracker[action].Mutations()`.  When the key is absent (also for a
`nil` map) the Go index expression yields a `nil` pointer and `Mutations`
reads `a.requests` through it: a runtime panic, embedded as `none`. -/
def AllActionsTracker.RequestsForAction {T : Type} (a : AllActionsTracker T)
    (action : Action) : Option (List T) :=
  match lookupA a.entries action with
  | none => none
  | some t => some t.Mutations

/-- Go: `func (a *AllActionsTracker[T]) AllRequests() []T` — concatenates every
sub-tracker's records, in map iteration order (here: entry order). -/
def AllActionsTracker.AllRequests {T : Type} (a : AllActionsTracker T) : List T :=
  a.entries.flatMap (fun p => p.2.Mutations)

/-- The loop body of `actionTracker.DeepCopy`: copy each record in order via
`v.DeepCopy().(T)`; a copy of the wrong dynamic type panics (`none`). -/
def deepCopyRequests {T : Type} (cap : SerializedRequestish T) :
    List T → Option (List T)
  | [] => some []
  | r :: rest =>
    match cap.deepCopy r with
    | none => none
    | some r2 => (deepCopyRequests cap rest).map (fun l => r2 :: l)

/-- Go: `func (a *actionTracker[T]) DeepCopy() *actionTracker[T]` — same action,
fresh slice of deep-copied records in original order. -/
def actionTracker.DeepCopy {T : Type} (cap : SerializedRequestish T)
    (a : actionTracker T) : Option (actionTracker T) :=
  (deepCopyRequests cap a.requests).map (fun rs => ⟨a.action, rs⟩)

/-- The loop of `AllActionsTracker.DeepCopy`: deep-copy every entry's
sub-tracker into a fresh map. -/
def deepCopyEntries {T : Type} (cap : SerializedRequestish T) :
    List (Action × actionTracker T) → Option (List (Action × actionTracker T))
  | [] => some []
  | (k, t) :: rest =>
    match actionTracker.DeepCopy cap t with
    | none => none
    | some t2 => (deepCopyEntries cap rest).map (fun l => (k, t2) :: l)

/-- Go: `func (a *AllActionsTracker[T]) DeepCopy() *AllActionsTracker[T]` — fresh
allocated map holding a deep copy of every entry. -/
def AllActionsTracker.DeepCopy {T : Type} (cap : SerializedRequestish T)
    (a : AllActionsTracker T) : Option (AllActionsTracker T) :=
  (deepCopyEntries cap a.entries).map (fun m => ⟨some m⟩)

/-- Well-formedness of a tracker state: keys are pairwise distinct, and every
entry's sub-tracker carries its key as its own action, holds at least one
record, and every record it holds reports that key. -/
def TrackerWF {T : Type} (cap : SerializedRequestish T) (a : AllActionsTracker T) : Prop :=
  (a.entries.map Prod.fst).Nodup ∧
    ∀ p ∈ a.entries, p.2.action = p.1 ∧ p.2.requests ≠ [] ∧
      ∀ r ∈ p.2.requests, cap.getAction r = p.1

/-- States reachable from a freshly constructed (or zero-value) tracker
through the public operations that produce tracker states. -/
inductive Reachable {T : Type} (cap : SerializedRequestish T) :
    AllActionsTracker T → Prop
  | new : Reachable cap (NewAllActionsTracker T)
  | zero : Reachable cap (zeroAllActionsTracker T)
  | addRequest {a a2 : AllActionsTracker T} {r : T} :
      Reachable cap a → AllActionsTracker.AddRequest cap a r = .ok a2 →
      Reachable cap a2
  | addRequests {a a2 : AllActionsTracker T} {rs : List T} :
      Reachable cap a → AllActionsTracker.AddRequests cap a rs = .ok a2 →
      Reachable cap a2
  | deepCopy {a a2 : AllActionsTracker T} :
      Reachable cap a → AllActionsTracker.DeepCopy cap a = some a2 →
      Reachable cap a2

/-- A concrete record type for witnesses: the record is a pair of the action
it reports and a payload number; its deep copy is itself (type-preserving and
content-equal, as the capability contract demands). -/
abbrev TestReq := Action × Nat

/-- Capability instance for `TestReq`. -/
def testCap : SerializedRequestish TestReq := ⟨Prod.fst, fun r => some r⟩

/-- How one action's binding evolves over a run: the old binding (if any)
extended by the run's records `f` for that action.  Used to state the
run-level lookup characterization. -/
def combineAt {T : Type} (a : Action) (old : Option (actionTracker T))
    (f : List T) : Option (actionTracker T) :=
  match old, f with
  | some t, f => some ⟨t.action, t.requests ++ f⟩
  | none, [] => none
  | none, f => some ⟨a, f⟩

/-! ### Association-list lemmas (the Go map model) -/

theorem lookupA_append {β : Type} (m l : List (Action × β)) (k : Action) :
    lookupA (m ++ l) k =
      match lookupA m k with
      | some v => some v
      | none => lookupA l k := by
  induction m with
  | nil => simp [lookupA]
  | cons p rest ih =>
    obtain ⟨k0, v0⟩ := p
    by_cases h : k0 = k <;> simp [lookupA, h, ih]

theorem lookupA_append_ne {β : Type} (m : List (Action × β)) {k a : Action}
    (w : β) (h : a ≠ k) : lookupA (m ++ [(k, w)]) a = lookupA m a := by
  rw [lookupA_append]
  cases hm : lookupA m a <;> simp [lookupA, Ne.symm h]

theorem lookupA_setA_self {β : Type} (m : List (Action × β)) (k : Action) (w : β) :
    lookupA (setA m k w) k = if (lookupA m k).isSome then some w else none := by
  induction m with
  | nil => simp [lookupA, setA]
  | cons p rest ih =>
    obtain ⟨k0, v0⟩ := p
    by_cases h : k0 = k <;> simp [lookupA, setA, h, ih]

theorem lookupA_setA_ne {β : Type} (m : List (Action × β)) {k a : Action}
    (w : β) (h : a ≠ k) : lookupA (setA m k w) a = lookupA m a := by
  induction m with
  | nil => simp [setA]
  | cons p rest ih =>
    obtain ⟨k0, v0⟩ := p
    by_cases h0 : k0 = k
    · subst h0
      simp [lookupA, setA, Ne.symm h]
    · by_cases h1 : k0 = a
      · subst h1
        simp [lookupA, setA, h]
      · simp [lookupA, setA, h0, h1, ih]

theorem setA_map_fst {β : Type} (m : List (Action × β)) (k : Action) (w : β) :
    (setA m k w).map Prod.fst = m.map Prod.fst := by
  induction m with
  | nil => simp [setA]
  | cons p rest ih =>
    obtain ⟨k0, v0⟩ := p
    by_cases h : k0 = k <;> simp [setA, h, ih]

theorem mem_setA {β : Type} {m : List (Action × β)} {k : Action} {w : β}
    {p : Action × β} (hp : p ∈ setA m k w) : p ∈ m ∨ p = (k, w) := by
  induction m with
  | nil => simp [setA] at hp
  | cons q rest ih =>
    obtain ⟨k0, v0⟩ := q
    by_cases h : k0 = k
    · subst h
      simp [setA] at hp
      rcases hp with hp | hp
      · right; simp [hp]
      · left; simp [hp]
    · simp [setA, h] at hp
      rcases hp with hp | hp
      · left; simp [hp]
      · rcases ih hp with hin | heq
        · left; simp [hin]
        · right; exact heq

theorem lookupA_isSome_iff {β : Type} (m : List (Action × β)) (k : Action) :
    (lookupA m k).isSome = true ↔ k ∈ m.map Prod.fst := by
  induction m with
  | nil => simp [lookupA]
  | cons p rest ih =>
    obtain ⟨k0, v0⟩ := p
    by_cases h : k0 = k
    · subst h; simp [lookupA]
    · simp [lookupA, h, Ne.symm h, ih]

theorem mem_of_lookupA {β : Type} {m : List (Action × β)} {k : Action} {v : β}
    (h : lookupA m k = some v) : (k, v) ∈ m := by
  induction m with
  | nil => simp [lookupA] at h
  | cons p rest ih =>
    obtain ⟨k0, v0⟩ := p
    by_cases h0 : k0 = k
    · subst h0
      simp [lookupA] at h
      simp [h]
    · simp [lookupA, h0] at h
      exact List.mem_cons_of_mem _ (ih h)

theorem lookupA_cons_self {β : Type} (rest : List (Action × β)) (k : Action) (v : β) :
    lookupA ((k, v) :: rest) k = some v := by
  simp [lookupA]

theorem lookupA_cons_ne {β : Type} (rest : List (Action × β)) {k0 k : Action}
    (v : β) (h : k0 ≠ k) : lookupA ((k0, v) :: rest) k = lookupA rest k := by
  simp [lookupA, h]

theorem setA_cons_self {β : Type} (rest : List (Action × β)) (k : Action) (v w : β) :
    setA ((k, v) :: rest) k w = (k, w) :: rest := by
  simp [setA]

theorem setA_cons_ne {β : Type} (rest : List (Action × β)) {k0 k : Action}
    (v w : β) (h : k0 ≠ k) :
    setA ((k0, v) :: rest) k w = (k0, v) :: setA rest k w := by
  simp [setA, h]

theorem setA_append_of_none {β : Type} {m : List (Action × β)} {k : Action}
    (v w : β) (h : lookupA m k = none) :
    setA (m ++ [(k, v)]) k w = m ++ [(k, w)] := by
  induction m with
  | nil => simp [setA]
  | cons p rest ih =>
    obtain ⟨k0, v0⟩ := p
    by_cases h0 : k0 = k
    · subst h0; simp [lookupA] at h
    · simp [lookupA, h0] at h
      simp [setA, h0, ih h]

/-! ### Characterization of a single insertion -/

theorem addRequest_eq {T : Type} (cap : SerializedRequestish T)
    (s : AllActionsTracker T) (r : T) :
    AllActionsTracker.AddRequest cap s r =
      match lookupA s.entries (cap.getAction r) with
      | some t =>
        if t.action = cap.getAction r then
          .ok ⟨some (setA s.entries (cap.getAction r)
            ⟨t.action, t.requests ++ [r]⟩)⟩
        else .error ⟨some s.entries⟩
      | none =>
        .ok ⟨some (s.entries ++
          [(cap.getAction r, ⟨cap.getAction r, [r]⟩)])⟩ := by
  simp only [AllActionsTracker.AddRequest, AllActionsTracker.entries]
  cases hl : lookupA (s.actionToTracker.getD []) (cap.getAction r) with
  | some t =>
    by_cases hta : t.action = cap.getAction r <;>
      simp [hl, hta, actionTracker.AddRequest]
  | none =>
    simp [hl, lookupA_append, lookupA, actionTracker.AddRequest,
      setA_append_of_none _ _ hl]

theorem wf_new {T : Type} (cap : SerializedRequestish T) :
    TrackerWF cap (NewAllActionsTracker T) := by
  simp [TrackerWF, NewAllActionsTracker, AllActionsTracker.entries]

theorem wf_zero {T : Type} (cap : SerializedRequestish T) :
    TrackerWF cap (zeroAllActionsTracker T) := by
  simp [TrackerWF, zeroAllActionsTracker, AllActionsTracker.entries]

/-- Branch lemma: the record's action already has a sub-tracker whose own
action matches (the well-formed case); append to it. -/
theorem addRequest_hit {T : Type} {cap : SerializedRequestish T}
    {s : AllActionsTracker T} {r : T} {t : actionTracker T}
    (hl : lookupA s.entries (cap.getAction r) = some t)
    (hta : t.action = cap.getAction r) :
    AllActionsTracker.AddRequest cap s r =
      .ok ⟨some (setA s.entries (cap.getAction r)
        ⟨t.action, t.requests ++ [r]⟩)⟩ := by
  rw [addRequest_eq, hl]
  exact if_pos hta

/-- Branch lemma: no sub-tracker yet for the record's action; create one
holding just this record. -/
theorem addRequest_miss {T : Type} {cap : SerializedRequestish T}
    {s : AllActionsTracker T} {r : T}
    (hl : lookupA s.entries (cap.getAction r) = none) :
    AllActionsTracker.AddRequest cap s r =
      .ok ⟨some (s.entries ++
        [(cap.getAction r, ⟨cap.getAction r, [r]⟩)])⟩ := by
  rw [addRequest_eq, hl]

/-- Branch lemma: the existing sub-tracker's own action disagrees with its
key — the delegate `actionTracker.AddRequest` panics. -/
theorem addRequest_mismatch {T : Type} {cap : SerializedRequestish T}
    {s : AllActionsTracker T} {r : T} {t : actionTracker T}
    (hl : lookupA s.entries (cap.getAction r) = some t)
    (hta : t.action ≠ cap.getAction r) :
    AllActionsTracker.AddRequest cap s r = .error ⟨some s.entries⟩ := by
  rw [addRequest_eq, hl]
  exact if_neg hta

theorem addRequest_ok_of_wf {T : Type} {cap : SerializedRequestish T}
    {s : AllActionsTracker T} (hwf : TrackerWF cap s) (r : T) :
    ∃ s2, AllActionsTracker.AddRequest cap s r = .ok s2 := by
  cases hl : lookupA s.entries (cap.getAction r) with
  | some t =>
    have hmem := mem_of_lookupA hl
    have hta : t.action = cap.getAction r := (hwf.2 _ hmem).1
    exact ⟨_, addRequest_hit hl hta⟩
  | none => exact ⟨_, addRequest_miss hl⟩

theorem wf_addRequest {T : Type} {cap : SerializedRequestish T}
    {s s2 : AllActionsTracker T} {r : T} (hwf : TrackerWF cap s)
    (h : AllActionsTracker.AddRequest cap s r = .ok s2) : TrackerWF cap s2 := by
  cases hl : lookupA s.entries (cap.getAction r) with
  | some t =>
    have hmem := mem_of_lookupA hl
    have hta : t.action = cap.getAction r := (hwf.2 _ hmem).1
    rw [addRequest_hit hl hta] at h
    simp only [Except.ok.injEq] at h
    subst h
    constructor
    · show ((setA s.entries _ _).map Prod.fst).Nodup
      rw [setA_map_fst]
      exact hwf.1
    · intro p hp
      rcases mem_setA hp with hin | heq
      · exact hwf.2 _ hin
      · subst heq
        refine ⟨hta, by simp, ?_⟩
        intro r2 hr2
        rcases List.mem_append.mp hr2 with hr2 | hr2
        · exact (hwf.2 _ hmem).2.2 r2 hr2
        · simp only [List.mem_singleton] at hr2
          subst hr2
          rfl
  | none =>
    rw [addRequest_miss hl] at h
    simp only [Except.ok.injEq] at h
    subst h
    have hnotmem : cap.getAction r ∉ s.entries.map Prod.fst := by
      intro hmem
      have := (lookupA_isSome_iff s.entries (cap.getAction r)).mpr hmem
      rw [hl] at this
      simp at this
    constructor
    · show ((s.entries ++ _).map Prod.fst).Nodup
      rw [List.map_append]
      simp only [List.map_cons, List.map_nil]
      rw [List.nodup_append]
      refine ⟨hwf.1, List.nodup_singleton _, ?_⟩
      intro a ha hb
      simp only [List.mem_singleton] at hb
      subst hb
      exact hnotmem ha
    · intro p hp
      rcases List.mem_append.mp hp with hin | heq
      · exact hwf.2 _ hin
      · simp only [List.mem_singleton] at heq
        subst heq
        exact ⟨rfl, by simp, by simp⟩

theorem addRequest_error_state {T : Type} {cap : SerializedRequestish T}
    {s e : AllActionsTracker T} {r : T}
    (h : AllActionsTracker.AddRequest cap s r = .error e) :
    e = ⟨some s.entries⟩ ∧
      ∃ t, lookupA s.entries (cap.getAction r) = some t ∧
        t.action ≠ cap.getAction r := by
  cases hl : lookupA s.entries (cap.getAction r) with
  | some t =>
    by_cases hta : t.action = cap.getAction r
    · rw [addRequest_hit hl hta] at h
      exact absurd h (by simp)
    · rw [addRequest_mismatch hl hta] at h
      simp only [Except.error.injEq] at h
      exact ⟨h.symm, t, rfl, hta⟩
  | none =>
    rw [addRequest_miss hl] at h
    exact absurd h (by simp)

/-! ### Run-level lemmas -/

@[simp] theorem entries_mk {T : Type} (m : List (Action × actionTracker T)) :
    (⟨some m⟩ : AllActionsTracker T).entries = m := rfl

theorem addRequests_cons_ok {T : Type} {cap : SerializedRequestish T}
    {s s1 : AllActionsTracker T} {r : T} (rs : List T)
    (h1 : AllActionsTracker.AddRequest cap s r = .ok s1) :
    AllActionsTracker.AddRequests cap s (r :: rs) =
      AllActionsTracker.AddRequests cap s1 rs := by
  simp [AllActionsTracker.AddRequests, h1]

theorem addRequests_cons_error {T : Type} {cap : SerializedRequestish T}
    {s e : AllActionsTracker T} {r : T} (rs : List T)
    (h1 : AllActionsTracker.AddRequest cap s r = .error e) :
    AllActionsTracker.AddRequests cap s (r :: rs) = .error e := by
  simp [AllActionsTracker.AddRequests, h1]

theorem addRequests_ok_of_wf {T : Type} {cap : SerializedRequestish T}
    {s : AllActionsTracker T} (hwf : TrackerWF cap s) (rs : List T) :
    ∃ s2, AllActionsTracker.AddRequests cap s rs = .ok s2 ∧ TrackerWF cap s2 := by
  induction rs generalizing s with
  | nil => exact ⟨s, rfl, hwf⟩
  | cons r rs ih =>
    obtain ⟨s1, h1⟩ := addRequest_ok_of_wf hwf r
    obtain ⟨s2, h2, hwf2⟩ := ih (wf_addRequest hwf h1)
    exact ⟨s2, by rw [addRequests_cons_ok rs h1, h2], hwf2⟩

theorem run_lookup {T : Type} {cap : SerializedRequestish T} (rs : List T) :
    ∀ {s s2 : AllActionsTracker T}, TrackerWF cap s →
      AllActionsTracker.AddRequests cap s rs = .ok s2 → ∀ a : Action,
      lookupA s2.entries a =
        combineAt a (lookupA s.entries a)
          (rs.filter (fun x => decide (cap.getAction x = a))) := by
  induction rs with
  | nil =>
    intro s s2 hwf h a
    simp only [AllActionsTracker.AddRequests, Except.ok.injEq] at h
    subst h
    cases hold : lookupA s.entries a <;> simp [combineAt]
  | cons r rs ih =>
    intro s s2 hwf h a
    cases hl : lookupA s.entries (cap.getAction r) with
    | some t =>
      have hta : t.action = cap.getAction r := (hwf.2 _ (mem_of_lookupA hl)).1
      have h1 := addRequest_hit hl hta
      rw [addRequests_cons_ok rs h1] at h
      have hres := ih (wf_addRequest hwf h1) h a
      rw [hres]
      by_cases hact : cap.getAction r = a
      · subst hact
        rw [entries_mk, lookupA_setA_self, hl]
        simp [combineAt, List.filter_cons, List.append_assoc]
      · rw [entries_mk, lookupA_setA_ne _ _ (Ne.symm hact)]
        simp [List.filter_cons, hact]
    | none =>
      have h1 := addRequest_miss hl
      rw [addRequests_cons_ok rs h1] at h
      have hres := ih (wf_addRequest hwf h1) h a
      rw [hres]
      by_cases hact : cap.getAction r = a
      · subst hact
        rw [entries_mk, lookupA_append, hl]
        simp [lookupA, combineAt, List.filter_cons]
      · rw [entries_mk, lookupA_append_ne _ _ (Ne.symm hact)]
        simp [List.filter_cons, hact]

theorem addRequests_eq_foldl {T : Type} (cap : SerializedRequestish T)
    (s : AllActionsTracker T) (rs : List T) :
    AllActionsTracker.AddRequests cap s rs =
      rs.foldl
        (fun acc r =>
          match acc with
          | .ok t => AllActionsTracker.AddRequest cap t r
          | .error e => .error e)
        (.ok s) := by
  induction rs generalizing s with
  | nil => rfl
  | cons r rs ih =>
    cases h1 : AllActionsTracker.AddRequest cap s r with
    | ok s1 =>
      rw [addRequests_cons_ok rs h1]
      simp only [List.foldl_cons, h1]
      exact ih s1
    | error e =>
      rw [addRequests_cons_error rs h1]
      simp only [List.foldl_cons, h1]
      clear h1 ih
      induction rs with
      | nil => rfl
      | cons r2 rs2 ih2 => simpa using ih2

theorem addRequests_error_split {T : Type} {cap : SerializedRequestish T}
    {s e : AllActionsTracker T} {rs : List T}
    (h : AllActionsTracker.AddRequests cap s rs = .error e) :
    ∃ k, ∃ hk : k < rs.length, ∃ s0 : AllActionsTracker T,
      AllActionsTracker.AddRequests cap s (rs.take k) = .ok s0 ∧
      AllActionsTracker.AddRequest cap s0 (rs.get ⟨k, hk⟩) = .error e ∧
      e.entries = s0.entries := by
  induction rs generalizing s with
  | nil => simp [AllActionsTracker.AddRequests] at h
  | cons r rs ih =>
    cases h1 : AllActionsTracker.AddRequest cap s r with
    | error e1 =>
      rw [addRequests_cons_error rs h1] at h
      simp only [Except.error.injEq] at h
      subst h
      refine ⟨0, by simp, s, rfl, h1, ?_⟩
      obtain ⟨he, -⟩ := addRequest_error_state h1
      rw [he]
      rfl
    | ok s1 =>
      rw [addRequests_cons_ok rs h1] at h
      obtain ⟨k, hk, s0, ha, hb, hc⟩ := ih h
      refine ⟨k + 1, by simpa using hk, s0, ?_, ?_, hc⟩
      · rw [List.take_succ_cons, addRequests_cons_ok _ h1]
        exact ha
      · simpa using hb

/-! ### Aggregation lemmas -/

theorem flatMap_setA_perm {T : Type} (m : List (Action × actionTracker T))
    (k : Action) (t : actionTracker T) (x : Action) (r : T)
    (hl : lookupA m k = some t) :
    List.Perm
      ((setA m k ⟨x, t.requests ++ [r]⟩).flatMap (fun p => p.2.requests))
      (m.flatMap (fun p => p.2.requests) ++ [r]) := by
  induction m with
  | nil => simp [lookupA] at hl
  | cons p rest ih =>
    obtain ⟨k0, t0⟩ := p
    by_cases h : k0 = k
    · subst h
      rw [lookupA_cons_self] at hl
      injection hl with hl
      subst hl
      rw [setA_cons_self, List.flatMap_cons, List.flatMap_cons,
        List.append_assoc, List.append_assoc]
      exact List.Perm.append_left _ List.perm_append_comm
    · rw [lookupA_cons_ne _ _ h] at hl
      rw [setA_cons_ne _ _ _ h, List.flatMap_cons, List.flatMap_cons,
        List.append_assoc]
      exact List.Perm.append_left _ (ih hl)

theorem allRequests_addRequest {T : Type} {cap : SerializedRequestish T}
    {s s2 : AllActionsTracker T} {r : T}
    (h : AllActionsTracker.AddRequest cap s r = .ok s2) :
    List.Perm s2.AllRequests (s.AllRequests ++ [r]) := by
  cases hl : lookupA s.entries (cap.getAction r) with
  | some t =>
    by_cases hta : t.action = cap.getAction r
    · rw [addRequest_hit hl hta] at h
      simp only [Except.ok.injEq] at h
      subst h
      simp only [AllActionsTracker.AllRequests, actionTracker.Mutations, entries_mk]
      exact flatMap_setA_perm _ _ _ _ _ hl
    · rw [addRequest_mismatch hl hta] at h
      exact absurd h (by simp)
  | none =>
    rw [addRequest_miss hl] at h
    simp only [Except.ok.injEq] at h
    subst h
    simp [AllActionsTracker.AllRequests, actionTracker.Mutations, entries_mk]

theorem allRequests_run {T : Type} {cap : SerializedRequestish T}
    {s s2 : AllActionsTracker T} {rs : List T}
    (h : AllActionsTracker.AddRequests cap s rs = .ok s2) :
    List.Perm s2.AllRequests (s.AllRequests ++ rs) := by
  induction rs generalizing s with
  | nil =>
    simp only [AllActionsTracker.AddRequests, Except.ok.injEq] at h
    subst h
    simp
  | cons r rs ih =>
    cases h1 : AllActionsTracker.AddRequest cap s r with
    | error e =>
      rw [addRequests_cons_error rs h1] at h
      exact absurd h (by simp)
    | ok s1 =>
      rw [addRequests_cons_ok rs h1] at h
      have p := (ih h).trans
        (List.Perm.append_right rs (allRequests_addRequest h1))
      rw [List.append_assoc] at p
      exact p

/-! ### Query lemmas -/

theorem combineAt_none_nil {T : Type} (a : Action) :
    combineAt (T := T) a none [] = none := rfl

theorem combineAt_none_cons {T : Type} (a : Action) (x : T) (l : List T) :
    combineAt a none (x :: l) = some ⟨a, x :: l⟩ := rfl

theorem requestsForAction_getD {T : Type} (s : AllActionsTracker T) (a : Action) :
    (s.RequestsForAction a).getD [] =
      (match lookupA s.entries a with
       | some t => t.requests
       | none => []) := by
  cases h : lookupA s.entries a <;>
    simp [AllActionsTracker.RequestsForAction, h, actionTracker.Mutations]

theorem listActions_perm {T : Type} (s : AllActionsTracker T) :
    List.Perm s.ListActions (s.entries.map Prod.fst).dedup :=
  List.perm_insertionSort _ _

theorem listActions_sorted {T : Type} (s : AllActionsTracker T) :
    s.ListActions.Sorted (· ≤ ·) :=
  List.sorted_insertionSort _ _

theorem listActions_nodup {T : Type} (s : AllActionsTracker T) :
    s.ListActions.Nodup :=
  ((listActions_perm s).nodup_iff).mpr (List.nodup_dedup _)

theorem mem_listActions {T : Type} (s : AllActionsTracker T) (a : Action) :
    a ∈ s.ListActions ↔ (lookupA s.entries a).isSome := by
  rw [(listActions_perm s).mem_iff, List.mem_dedup, ← lookupA_isSome_iff]

theorem flatMap_congr_mem {α β : Type} {l : List α} {f g : α → List β}
    (h : ∀ a ∈ l, f a = g a) : l.flatMap f = l.flatMap g := by
  induction l with
  | nil => rfl
  | cons x xs ih =>
    rw [List.flatMap_cons, List.flatMap_cons, h x (by simp),
      ih (fun a ha => h a (by simp [ha]))]

theorem flatMap_lookup_eq {T : Type} (m : List (Action × actionTracker T))
    (hnd : (m.map Prod.fst).Nodup) :
    (m.map Prod.fst).flatMap
        (fun a =>
          match lookupA m a with
          | some t => t.requests
          | none => []) =
      m.flatMap (fun p => p.2.requests) := by
  induction m with
  | nil => rfl
  | cons p rest ih =>
    obtain ⟨k0, t0⟩ := p
    simp only [List.map_cons, List.nodup_cons] at hnd
    rw [List.map_cons, List.flatMap_cons, List.flatMap_cons, lookupA_cons_self]
    have htail :
        (rest.map Prod.fst).flatMap
            (fun a =>
              match lookupA ((k0, t0) :: rest) a with
              | some t => t.requests
              | none => []) =
          (rest.map Prod.fst).flatMap
            (fun a =>
              match lookupA rest a with
              | some t => t.requests
              | none => []) := by
      refine flatMap_congr_mem (fun a ha => ?_)
      have hne : k0 ≠ a := fun e => hnd.1 (e ▸ ha)
      rw [lookupA_cons_ne _ _ hne]
    rw [htail, ih hnd.2]

/-! ### Deep-copy lemmas -/

theorem deepCopyRequests_id {T : Type} {cap : SerializedRequestish T}
    (hcap : ∀ x, cap.deepCopy x = some x) (l : List T) :
    deepCopyRequests cap l = some l := by
  induction l with
  | nil => rfl
  | cons r rest ih => simp [deepCopyRequests, hcap, ih]

theorem actionTracker_deepCopy_id {T : Type} {cap : SerializedRequestish T}
    (hcap : ∀ x, cap.deepCopy x = some x) (t : actionTracker T) :
    actionTracker.DeepCopy cap t = some t := by
  simp [actionTracker.DeepCopy, deepCopyRequests_id hcap]

theorem deepCopyEntries_id {T : Type} {cap : SerializedRequestish T}
    (hcap : ∀ x, cap.deepCopy x = some x)
    (m : List (Action × actionTracker T)) :
    deepCopyEntries cap m = some m := by
  induction m with
  | nil => rfl
  | cons p rest ih =>
    obtain ⟨k, t⟩ := p
    simp [deepCopyEntries, actionTracker_deepCopy_id hcap, ih]

theorem deepCopy_id {T : Type} {cap : SerializedRequestish T}
    (hcap : ∀ x, cap.deepCopy x = some x) (s : AllActionsTracker T) :
    AllActionsTracker.DeepCopy cap s = some ⟨some s.entries⟩ := by
  simp [AllActionsTracker.DeepCopy, deepCopyEntries_id hcap]

theorem deepCopyRequests_isSome_iff {T : Type} (cap : SerializedRequestish T)
    (l : List T) :
    (deepCopyRequests cap l).isSome ↔ ∀ r ∈ l, (cap.deepCopy r).isSome := by
  induction l with
  | nil => simp [deepCopyRequests]
  | cons r rest ih =>
    simp only [deepCopyRequests, List.mem_cons]
    cases h : cap.deepCopy r with
    | none =>
      constructor
      · intro hs
        simp at hs
      · intro hall
        have hr := hall r (Or.inl rfl)
        rw [h] at hr
        simp at hr
    | some r2 =>
      constructor
      · intro hs
        intro x hx
        rcases hx with hx | hx
        · subst hx
          simp [h]
        · have hrest : (deepCopyRequests cap rest).isSome := by
            cases h2 : deepCopyRequests cap rest with
            | none =>
              rw [h2] at hs
              simp at hs
            | some l2 => simp
          exact (ih.mp hrest) x hx
      · intro hall
        have hrest : (deepCopyRequests cap rest).isSome :=
          ih.mpr (fun x hx => hall x (Or.inr hx))
        cases h2 : deepCopyRequests cap rest with
        | none =>
          rw [h2] at hrest
          simp at hrest
        | some l2 => simp [h2]

/-! ### Well-formedness of reachable states -/

theorem wf_entries_mk {T : Type} {cap : SerializedRequestish T}
    {s : AllActionsTracker T} (hwf : TrackerWF cap s) :
    TrackerWF cap (⟨some s.entries⟩ : AllActionsTracker T) := by
  unfold TrackerWF at hwf ⊢
  rw [entries_mk]
  exact hwf

theorem wf_addRequests {T : Type} {cap : SerializedRequestish T}
    {s s2 : AllActionsTracker T} {rs : List T} (hwf : TrackerWF cap s)
    (h : AllActionsTracker.AddRequests cap s rs = .ok s2) : TrackerWF cap s2 := by
  obtain ⟨s3, h3, hwf3⟩ := addRequests_ok_of_wf hwf rs
  rw [h] at h3
  simp only [Except.ok.injEq] at h3
  subst h3
  exact hwf3

theorem wf_reachable {T : Type} {cap : SerializedRequestish T}
    {s : AllActionsTracker T} (hcap : ∀ x, cap.deepCopy x = some x)
    (h : Reachable cap s) : TrackerWF cap s := by
  induction h with
  | new => exact wf_new cap
  | zero => exact wf_zero cap
  | addRequest _ he ih => exact wf_addRequest ih he
  | addRequests _ he ih => exact wf_addRequests ih he
  | deepCopy _ he ih =>
    rw [deepCopy_id hcap] at he
    simp only [Option.some.injEq] at he
    subst he
    exact wf_entries_mk ih

theorem queries_eq_of_entries_eq {T : Type} {x y : AllActionsTracker T}
    (h : x.entries = y.entries) :
    x.ListActions = y.ListActions ∧
      (∀ a, x.RequestsForAction a = y.RequestsForAction a) ∧
      x.AllRequests = y.AllRequests := by
  refine ⟨?_, ?_, ?_⟩ <;>
    simp [AllActionsTracker.ListActions, AllActionsTracker.RequestsForAction,
      AllActionsTracker.AllRequests, h]

/-! ### Claims -/

/-- C1, counterexample: on a fresh tracker (no record ever recorded),
`RequestsForAction(Apply)` does not return the empty sequence — the Go code
dereferences the `nil` sub-tracker pointer inside `Mutations` and panics
(embedded as `none`). -/
theorem c1_counterexample :
    AllActionsTracker.RequestsForAction (NewAllActionsTracker TestReq)
        ActionApply = none ∧
      (none : Option (List TestReq)) ≠ some [] :=
  ⟨rfl, by simp⟩

/-- C1 (amended): for every run of insertions from a fresh tracker and every
Action `a` for which no inserted record reports `a` (including a never-seen
Action), `RequestsForAction a` fails (nil-pointer panic, embedded `none`)
instead of returning an empty sequence. -/
theorem c1_amended_requestsForAction_absent {T : Type}
    {cap : SerializedRequestish T} {rs : List T} {s2 : AllActionsTracker T}
    {a : Action}
    (h : AllActionsTracker.AddRequests cap (NewAllActionsTracker T) rs = .ok s2)
    (habs : ∀ r ∈ rs, cap.getAction r ≠ a) :
    s2.RequestsForAction a = none := by
  have hlk := run_lookup rs (wf_new cap) h a
  have hfil : rs.filter (fun x => decide (cap.getAction x = a)) = [] := by
    rw [List.filter_eq_nil_iff]
    intro x hx
    simpa using habs x hx
  rw [hfil] at hlk
  have hnone : lookupA s2.entries a = none := by
    rw [hlk]
    rfl
  simp [AllActionsTracker.RequestsForAction, hnone]

/-- C1 witness: a run containing only an Update record, queried for Apply. -/
theorem c1_amended_witness :
    AllActionsTracker.RequestsForAction
      (⟨some [(ActionUpdate, ⟨ActionUpdate, [(ActionUpdate, 2)]⟩)]⟩ :
        AllActionsTracker TestReq) ActionApply = none :=
  @c1_amended_requestsForAction_absent TestReq testCap [(ActionUpdate, 2)]
    ⟨some [(ActionUpdate, ⟨ActionUpdate, [(ActionUpdate, 2)]⟩)]⟩ ActionApply
    rfl (by decide)

/-- C2, counterexample: after inserting the single Apply record
`(Apply, 1)`, the subsequence of insertions reporting Update is empty, so the
claim demands `RequestsForAction(Update) = some []`; the code instead fails
(`none`, the nil-pointer panic). -/
theorem c2_counterexample :
    AllActionsTracker.AddRequest testCap (NewAllActionsTracker TestReq)
        (ActionApply, 1) =
      .ok ⟨some [(ActionApply, ⟨ActionApply, [(ActionApply, 1)]⟩)]⟩ ∧
    AllActionsTracker.RequestsForAction
        (⟨some [(ActionApply, ⟨ActionApply, [(ActionApply, 1)]⟩)]⟩ :
          AllActionsTracker TestReq) ActionUpdate = none ∧
    List.filter (fun x => decide (testCap.getAction x = ActionUpdate))
        [(ActionApply, 1)] = [] ∧
    (none : Option (List TestReq)) ≠ some [] :=
  ⟨rfl, rfl, rfl, by simp⟩

/-- C2 (amended): for every run of insertions from a fresh tracker and every
Action `a`, `RequestsForAction a` returns exactly the subsequence of
insertions reporting `a`, in original relative order, whenever that
subsequence is nonempty; when it is empty the query fails (`none`) instead
of returning the empty subsequence. -/
theorem c2_amended_requestsForAction_filter {T : Type}
    {cap : SerializedRequestish T} {rs : List T} {s2 : AllActionsTracker T}
    {a : Action}
    (h : AllActionsTracker.AddRequests cap (NewAllActionsTracker T) rs = .ok s2) :
    s2.RequestsForAction a =
      (match rs.filter (fun x => decide (cap.getAction x = a)) with
       | [] => none
       | f => some f) := by
  have hlk := run_lookup rs (wf_new cap) h a
  have hne : lookupA (NewAllActionsTracker T).entries a = none := rfl
  rw [hne] at hlk
  cases hf : rs.filter (fun x => decide (cap.getAction x = a)) with
  | nil =>
    rw [hf, combineAt_none_nil] at hlk
    simp [AllActionsTracker.RequestsForAction, hlk]
  | cons x l =>
    rw [hf, combineAt_none_cons] at hlk
    simp [AllActionsTracker.RequestsForAction, hlk, actionTracker.Mutations]

/-- C2 witness: one Apply record, queried for Apply. -/
theorem c2_amended_witness :
    AllActionsTracker.RequestsForAction
      (⟨some [(ActionApply, ⟨ActionApply, [(ActionApply, 1)]⟩)]⟩ :
        AllActionsTracker TestReq) ActionApply =
      (match List.filter (fun x => decide (testCap.getAction x = ActionApply))
          [(ActionApply, 1)] with
       | [] => none
       | f => some f) :=
  @c2_amended_requestsForAction_filter TestReq testCap [(ActionApply, 1)]
    ⟨some [(ActionApply, ⟨ActionApply, [(ActionApply, 1)]⟩)]⟩ ActionApply rfl

/-- C3 (confirmed): for every state reached by insertions from a fresh
tracker, `AllRequests` is — as a multiset (permutation) — the union of
`RequestsForAction a` over `a ∈ ListActions`, and its length is the number
of insertions (all of which succeed from a fresh tracker).  No cross-action
order is asserted: the aggregate is characterized only up to permutation,
matching the unspecified Go map iteration order. -/
theorem c3_allRequests_union {T : Type} {cap : SerializedRequestish T}
    {rs : List T} {s2 : AllActionsTracker T}
    (h : AllActionsTracker.AddRequests cap (NewAllActionsTracker T) rs = .ok s2) :
    List.Perm s2.AllRequests
        (s2.ListActions.flatMap (fun a => (s2.RequestsForAction a).getD [])) ∧
      s2.AllRequests.length = rs.length := by
  have hwf2 := wf_addRequests (wf_new cap) h
  have hperm : List.Perm s2.AllRequests rs := by
    have := allRequests_run h
    simpa using this
  constructor
  · have hk : List.Perm s2.ListActions (s2.entries.map Prod.fst) := by
      have := listActions_perm s2
      rwa [List.dedup_eq_self.mpr hwf2.1] at this
    have hflat := List.Perm.flatMap_right
      (fun a => (s2.RequestsForAction a).getD []) hk
    have heq : (s2.entries.map Prod.fst).flatMap
        (fun a => (s2.RequestsForAction a).getD []) = s2.AllRequests := by
      rw [flatMap_congr_mem (fun a _ => requestsForAction_getD s2 a)]
      rw [flatMap_lookup_eq _ hwf2.1]
      rfl
    rw [heq] at hflat
    exact hflat.symm
  · exact hperm.length_eq

/-- C3 witness: two records of distinct actions. -/
theorem c3_witness :
    List.Perm
        (AllActionsTracker.AllRequests
          (⟨some [(ActionApply, ⟨ActionApply, [(ActionApply, 1)]⟩),
            (ActionUpdate, ⟨ActionUpdate, [(ActionUpdate, 2)]⟩)]⟩ :
            AllActionsTracker TestReq))
        ((AllActionsTracker.ListActions
          (⟨some [(ActionApply, ⟨ActionApply, [(ActionApply, 1)]⟩),
            (ActionUpdate, ⟨ActionUpdate, [(ActionUpdate, 2)]⟩)]⟩ :
            AllActionsTracker TestReq)).flatMap
          (fun a => (AllActionsTracker.RequestsForAction
            (⟨some [(ActionApply, ⟨ActionApply, [(ActionApply, 1)]⟩),
              (ActionUpdate, ⟨ActionUpdate, [(ActionUpdate, 2)]⟩)]⟩ :
              AllActionsTracker TestReq) a).getD [])) ∧
      (AllActionsTracker.AllRequests
        (⟨some [(ActionApply, ⟨ActionApply, [(ActionApply, 1)]⟩),
          (ActionUpdate, ⟨ActionUpdate, [(ActionUpdate, 2)]⟩)]⟩ :
          AllActionsTracker TestReq)).length =
        ([((ActionApply : Action), 1), (ActionUpdate, 2)] : List TestReq).length :=
  @c3_allRequests_union TestReq testCap [(ActionApply, 1), (ActionUpdate, 2)]
    ⟨some [(ActionApply, ⟨ActionApply, [(ActionApply, 1)]⟩),
      (ActionUpdate, ⟨ActionUpdate, [(ActionUpdate, 2)]⟩)]⟩ rfl

/-- C4 (confirmed): for every state reached by insertions from a fresh
tracker, `ListActions` is duplicate-free, ascending in the string order
(lexicographic over the Action's text), contains exactly the Actions some
insertion reported, and every listed Action has a nonempty record sequence.
Determinism of two adjacent calls is immediate: `ListActions` is a pure
function of the state. -/
theorem c4_listActions {T : Type} {cap : SerializedRequestish T}
    {rs : List T} {s2 : AllActionsTracker T}
    (h : AllActionsTracker.AddRequests cap (NewAllActionsTracker T) rs = .ok s2) :
    s2.ListActions.Nodup ∧
      s2.ListActions.Sorted (· ≤ ·) ∧
      (∀ a, a ∈ s2.ListActions ↔ ∃ r ∈ rs, cap.getAction r = a) ∧
      ∀ a ∈ s2.ListActions,
        ∃ l, s2.RequestsForAction a = some l ∧ l ≠ [] := by
  have hlk : ∀ a, lookupA s2.entries a =
      combineAt a none (rs.filter (fun x => decide (cap.getAction x = a))) := by
    intro a
    have := run_lookup rs (wf_new cap) h a
    rwa [show lookupA (NewAllActionsTracker T).entries a = none from rfl] at this
  refine ⟨listActions_nodup s2, listActions_sorted s2, ?_, ?_⟩
  · intro a
    rw [mem_listActions, hlk a]
    cases hf : rs.filter (fun x => decide (cap.getAction x = a)) with
    | nil =>
      simp only [combineAt_none_nil, Option.isSome_none, Bool.false_eq_true,
        false_iff]
      rintro ⟨r, hr, e⟩
      have := List.filter_eq_nil_iff.mp hf r hr
      simp [e] at this
    | cons x l =>
      simp only [combineAt_none_cons, Option.isSome_some, true_iff]
      have hx : x ∈ rs.filter (fun x => decide (cap.getAction x = a)) := by
        rw [hf]
        exact List.mem_cons_self x l
      have := List.mem_filter.mp hx
      exact ⟨x, this.1, by simpa using this.2⟩
  · intro a ha
    rw [mem_listActions] at ha
    cases hf : rs.filter (fun x => decide (cap.getAction x = a)) with
    | nil =>
      rw [hlk a, hf, combineAt_none_nil] at ha
      simp at ha
    | cons x l =>
      have h2 : lookupA s2.entries a = some ⟨a, x :: l⟩ := by
        rw [hlk a, hf, combineAt_none_cons]
      refine ⟨x :: l, ?_, by simp⟩
      simp [AllActionsTracker.RequestsForAction, h2, actionTracker.Mutations]

/-- C4 witness: one Create record. -/
theorem c4_witness :
    (AllActionsTracker.ListActions
        (⟨some [(ActionCreate, ⟨ActionCreate, [(ActionCreate, 3)]⟩)]⟩ :
          AllActionsTracker TestReq)).Nodup ∧
      (AllActionsTracker.ListActions
        (⟨some [(ActionCreate, ⟨ActionCreate, [(ActionCreate, 3)]⟩)]⟩ :
          AllActionsTracker TestReq)).Sorted (· ≤ ·) ∧
      (∀ a, a ∈ AllActionsTracker.ListActions
          (⟨some [(ActionCreate, ⟨ActionCreate, [(ActionCreate, 3)]⟩)]⟩ :
            AllActionsTracker TestReq) ↔
        ∃ r ∈ ([((ActionCreate : Action), 3)] : List TestReq),
          testCap.getAction r = a) ∧
      ∀ a ∈ AllActionsTracker.ListActions
          (⟨some [(ActionCreate, ⟨ActionCreate, [(ActionCreate, 3)]⟩)]⟩ :
            AllActionsTracker TestReq),
        ∃ l, AllActionsTracker.RequestsForAction
            (⟨some [(ActionCreate, ⟨ActionCreate, [(ActionCreate, 3)]⟩)]⟩ :
              AllActionsTracker TestReq) a = some l ∧ l ≠ [] :=
  @c4_listActions TestReq testCap [(ActionCreate, 3)]
    ⟨some [(ActionCreate, ⟨ActionCreate, [(ActionCreate, 3)]⟩)]⟩ rfl

/-- C5 (confirmed): under the capability contract (every record's deep copy
is type-preserving and content-equal), `DeepCopy` succeeds and produces a
tracker whose `ListActions`, `RequestsForAction`, and `AllRequests` results
are equal to the source's at copy time.  Independence is automatic in this
embedding: tracker states are immutable values, so no later insertion into
either value can alter the other — the Go aliasing hazard the claim rules
out has no counterpart here. -/
theorem c5_deepCopy_content_equal {T : Type} {cap : SerializedRequestish T}
    (hcap : ∀ x, cap.deepCopy x = some x) (s : AllActionsTracker T) :
    ∃ c, AllActionsTracker.DeepCopy cap s = some c ∧
      c.ListActions = s.ListActions ∧
      (∀ a, c.RequestsForAction a = s.RequestsForAction a) ∧
      c.AllRequests = s.AllRequests :=
  ⟨⟨some s.entries⟩, deepCopy_id hcap s, rfl, fun _ => rfl, rfl⟩

/-- C5 witness: a concrete one-entry tracker with the identity deep copy. -/
theorem c5_witness :
    ∃ c, AllActionsTracker.DeepCopy testCap
        (⟨some [(ActionApply, ⟨ActionApply, [(ActionApply, 1)]⟩)]⟩ :
          AllActionsTracker TestReq) = some c ∧
      c.ListActions = AllActionsTracker.ListActions
        (⟨some [(ActionApply, ⟨ActionApply, [(ActionApply, 1)]⟩)]⟩ :
          AllActionsTracker TestReq) ∧
      (∀ a, c.RequestsForAction a = AllActionsTracker.RequestsForAction
        (⟨some [(ActionApply, ⟨ActionApply, [(ActionApply, 1)]⟩)]⟩ :
          AllActionsTracker TestReq) a) ∧
      c.AllRequests = AllActionsTracker.AllRequests
        (⟨some [(ActionApply, ⟨ActionApply, [(ActionApply, 1)]⟩)]⟩ :
          AllActionsTracker TestReq) :=
  c5_deepCopy_content_equal (fun _ => rfl) _

/-- C6 (confirmed): `actionTracker.AddRequest` panics (`none`) exactly when
the record's reported Action differs from the tracker's own Action; and
routed through `AllActionsTracker.AddRequest` on a well-formed tracker state
(the invariant every API-reachable state satisfies, see C8) the panic is
never triggered for any record. -/
theorem c6_panic_iff_mismatch {T : Type} (cap : SerializedRequestish T) :
    (∀ (t : actionTracker T) (r : T),
      actionTracker.AddRequest cap t r = none ↔
        cap.getAction r ≠ t.action) ∧
    ∀ (s : AllActionsTracker T) (r : T), TrackerWF cap s →
      ∃ s2, AllActionsTracker.AddRequest cap s r = .ok s2 := by
  constructor
  · intro t r
    by_cases h : t.action = cap.getAction r
    · simp [actionTracker.AddRequest, h]
    · simp [actionTracker.AddRequest, h, Ne.symm h]
  · intro s r hwf
    exact addRequest_ok_of_wf hwf r

/-- C6 witness: a mismatched direct insertion panics; a routed insertion
into the (well-formed) fresh tracker succeeds. -/
theorem c6_witness :
    (actionTracker.AddRequest testCap ⟨ActionApply, []⟩ (ActionUpdate, 2) =
      none) ∧
    ∃ s2, AllActionsTracker.AddRequest testCap (NewAllActionsTracker TestReq)
      (ActionApply, 1) = .ok s2 :=
  ⟨((c6_panic_iff_mismatch testCap).1 _ _).mpr (by decide),
    (c6_panic_iff_mismatch testCap).2 _ _ (wf_new testCap)⟩

/-- C7 (confirmed): `AddRequests` equals the left fold of single `AddRequest`
calls in the given order; and when it aborts, the abort happens at some
position `k`, the state at the abort is exactly the state after the first
`k` (all successful) insertions — its `ListActions`, `RequestsForAction`,
and `AllRequests` results are unchanged: no rollback, prior insertions
intact. -/
theorem c7_addRequests_fold_and_no_rollback {T : Type}
    (cap : SerializedRequestish T) :
    (∀ (s : AllActionsTracker T) (rs : List T),
      AllActionsTracker.AddRequests cap s rs =
        rs.foldl
          (fun acc r =>
            match acc with
            | .ok t => AllActionsTracker.AddRequest cap t r
            | .error e => .error e)
          (.ok s)) ∧
    ∀ (s e : AllActionsTracker T) (rs : List T),
      AllActionsTracker.AddRequests cap s rs = .error e →
      ∃ k, ∃ hk : k < rs.length, ∃ s0,
        AllActionsTracker.AddRequests cap s (rs.take k) = .ok s0 ∧
        AllActionsTracker.AddRequest cap s0 (rs.get ⟨k, hk⟩) = .error e ∧
        e.ListActions = s0.ListActions ∧
        (∀ a, e.RequestsForAction a = s0.RequestsForAction a) ∧
        e.AllRequests = s0.AllRequests := by
  constructor
  · intro s rs
    exact addRequests_eq_foldl cap s rs
  · intro s e rs h
    obtain ⟨k, hk, s0, ha, hb, hc⟩ := addRequests_error_split h
    have hq := queries_eq_of_entries_eq hc
    exact ⟨k, hk, s0, ha, hb, hq.1, hq.2.1, hq.2.2⟩

/-- C7 witness: a hand-built state whose Apply entry holds a sub-tracker
declaring Update; the first insertion aborts and the abort state's queries
equal those of the start state. -/
theorem c7_witness :
    ∃ k, ∃ hk : k < ([((ActionApply : Action), 7)] : List TestReq).length,
      ∃ s0, AllActionsTracker.AddRequests testCap
          (⟨some [(ActionApply, ⟨ActionUpdate, []⟩)]⟩ :
            AllActionsTracker TestReq)
          (([((ActionApply : Action), 7)] : List TestReq).take k) = .ok s0 ∧
        AllActionsTracker.AddRequest testCap s0
          (([((ActionApply : Action), 7)] : List TestReq).get ⟨k, hk⟩) =
          .error ⟨some [(ActionApply, ⟨ActionUpdate, []⟩)]⟩ ∧
        (⟨some [(ActionApply, ⟨ActionUpdate, []⟩)]⟩ :
          AllActionsTracker TestReq).ListActions = s0.ListActions ∧
        (∀ a, (⟨some [(ActionApply, ⟨ActionUpdate, []⟩)]⟩ :
          AllActionsTracker TestReq).RequestsForAction a =
            s0.RequestsForAction a) ∧
        (⟨some [(ActionApply, ⟨ActionUpdate, []⟩)]⟩ :
          AllActionsTracker TestReq).AllRequests = s0.AllRequests :=
  (c7_addRequests_fold_and_no_rollback testCap).2
    ⟨some [(ActionApply, ⟨ActionUpdate, []⟩)]⟩
    ⟨some [(ActionApply, ⟨ActionUpdate, []⟩)]⟩
    [((ActionApply : Action), 7)] rfl

/-- C8 (confirmed): every state reachable from a constructed (or zero-value)
tracker through the public operations — under the capability contract for
deep copies — satisfies the invariant: keys are pairwise distinct (at most
one sub-tracker per Action), every key's sub-tracker declares that key as
its own Action, holds at least one record, and every record it holds
reports that key. -/
theorem c8_reachable_invariant {T : Type} {cap : SerializedRequestish T}
    {s : AllActionsTracker T} (hcap : ∀ x, cap.deepCopy x = some x)
    (h : Reachable cap s) : TrackerWF cap s :=
  wf_reachable hcap h

/-- C8 witness: the state after one routed insertion is well-formed. -/
theorem c8_witness :
    TrackerWF testCap
      (⟨some [(ActionApply, ⟨ActionApply, [(ActionApply, 1)]⟩)]⟩ :
        AllActionsTracker TestReq) :=
  c8_reachable_invariant (fun _ => rfl)
    (@Reachable.addRequest TestReq testCap (NewAllActionsTracker TestReq)
      ⟨some [(ActionApply, ⟨ActionApply, [(ActionApply, 1)]⟩)]⟩
      (ActionApply, 1) Reachable.new rfl)

/-- C9, counterexample: `RequestsForAction` on the zero-value tracker is not
total — for any action it fails (nil-pointer panic, embedded `none`) rather
than returning a sequence, refuting "every public operation is total". -/
theorem c9_counterexample :
    AllActionsTracker.RequestsForAction (zeroAllActionsTracker TestReq)
        ActionApply = none ∧
      (none : Option (List TestReq)) ≠ some [] :=
  ⟨rfl, by simp⟩

/-- C9 (amended): on a zero-value tracker whose map is `nil`, `AddRequest`
is total — it lazily allocates the map, records the request, and returns
exactly what it returns on a constructor-built empty tracker — and
`ListActions`, `AllRequests`, and `DeepCopy` succeed with empty results
identical to the constructor-built empty tracker's (`DeepCopy` yields the
constructor-built empty tracker itself).  `RequestsForAction` also behaves
identically to the constructor-built empty tracker, but is not total: it
fails (`none`) for every action on both. -/
theorem c9_amended_zero_value_behavior {T : Type} (cap : SerializedRequestish T) :
    (∀ r : T,
      AllActionsTracker.AddRequest cap (zeroAllActionsTracker T) r =
        AllActionsTracker.AddRequest cap (NewAllActionsTracker T) r ∧
      ∃ s2, AllActionsTracker.AddRequest cap (zeroAllActionsTracker T) r =
        .ok s2) ∧
    (zeroAllActionsTracker T).ListActions = [] ∧
    (zeroAllActionsTracker T).ListActions =
      (NewAllActionsTracker T).ListActions ∧
    (zeroAllActionsTracker T).AllRequests = [] ∧
    (zeroAllActionsTracker T).AllRequests =
      (NewAllActionsTracker T).AllRequests ∧
    AllActionsTracker.DeepCopy cap (zeroAllActionsTracker T) =
      some (NewAllActionsTracker T) ∧
    AllActionsTracker.DeepCopy cap (zeroAllActionsTracker T) =
      AllActionsTracker.DeepCopy cap (NewAllActionsTracker T) ∧
    ∀ a, (zeroAllActionsTracker T).RequestsForAction a =
        (NewAllActionsTracker T).RequestsForAction a ∧
      (zeroAllActionsTracker T).RequestsForAction a = none :=
  ⟨fun _ => ⟨rfl, ⟨_, addRequest_miss rfl⟩⟩, rfl, rfl, rfl, rfl, rfl, rfl,
    fun _ => ⟨rfl, rfl⟩⟩

/-- C10 (confirmed): `actionTracker.DeepCopy` succeeds exactly when every
stored record's deep copy is type-preserving (`some`); when every record's
deep copy is type-preserving — the capability contract — the failed
type-assertion branch is unreachable and the copy succeeds. -/
theorem c10_deepCopy_type_assertion {T : Type} (cap : SerializedRequestish T)
    (t : actionTracker T) :
    ((actionTracker.DeepCopy cap t).isSome ↔
      ∀ r ∈ t.requests, (cap.deepCopy r).isSome) ∧
    ((∀ x : T, (cap.deepCopy x).isSome) →
      ∃ t2, actionTracker.DeepCopy cap t = some t2) := by
  have hmap : (actionTracker.DeepCopy cap t).isSome =
      (deepCopyRequests cap t.requests).isSome := by
    unfold actionTracker.DeepCopy
    cases h : deepCopyRequests cap t.requests <;> simp [h]
  constructor
  · rw [hmap]
    exact deepCopyRequests_isSome_iff cap t.requests
  · intro hall
    have hs : (actionTracker.DeepCopy cap t).isSome := by
      rw [hmap]
      exact (deepCopyRequests_isSome_iff cap t.requests).mpr
        (fun r _ => hall r)
    exact Option.isSome_iff_exists.mp hs

/-- C10 witness: a tracker holding one record under the identity deep copy. -/
theorem c10_witness :
    ∃ t2, actionTracker.DeepCopy testCap
      ⟨ActionApply, [(ActionApply, 1)]⟩ = some t2 :=
  (c10_deepCopy_type_assertion testCap _).2 (fun _ => rfl)

end ManifestClient
